import Mathlib

/-!
# SkillForge — Personal Skill Tracker: formal model

A shallow embedding of `src/skillforge.py`. Python floats are modelled as
exact rationals (`ℚ`); the arithmetic in the mastery formulas is the
real-number arithmetic the spec states. Timestamps (`datetime.now()`) are
modelled by an explicit `now : String` argument threaded through every
mutating operation. Python exceptions become `Except SkillError`; the
error constructors follow the spec's taxonomy (the source raises
`ValueError` for validation / duplicate / not-found and `TypeError` for
the variant mismatch, which the spec names `ValidationError`,
`DuplicateSkillError`, `NotFoundError`, `TypeMismatchError`).
Persistence is modelled at the record level: `to_dict` produces a
`SkillRecord` (the JSON object per skill) and `load` consumes a list of
records, exactly mirroring `save_skills` / `__load_skills`.
-/

/-- The two skill variants with their variant-specific field:
`TechnicalSkill.__difficulty_level` and `SoftSkill.__real_world_applications`. -/
inductive Variant where
  | technical (difficulty_level : Int)
  | soft (real_world_applications : Int)
deriving DecidableEq, Repr

/-- A skill object: the fields of `SkillBase` plus the variant tag
(the Python subclass) carrying its specific field. -/
structure Skill where
  name : String
  category : String
  progress : ℚ
  practice_hours : ℚ
  created_at : String
  last_updated : String
  variant : Variant
deriving DecidableEq, Repr

/-- Error taxonomy of the manager's operations (spec §7). -/
inductive SkillError where
  | validationError
  | duplicateSkillError
  | notFoundError
  | typeMismatchError
deriving DecidableEq, Repr

/-- `TechnicalSkill.__init__`: progress and hours start at 0, the difficulty
level is clamped to the 1–10 scale by `min(max(difficulty_level, 1), 10)`. -/
def mkTechnicalSkill (name category : String) (difficulty_level : Int)
    (now : String) : Skill :=
  { name := name, category := category, progress := 0, practice_hours := 0,
    created_at := now, last_updated := now,
    variant := .technical (min (max difficulty_level 1) 10) }

/-- `SoftSkill.__init__`: progress and hours start at 0, the application
count is clamped below by `max(real_world_applications, 0)`. -/
def mkSoftSkill (name category : String) (real_world_applications : Int)
    (now : String) : Skill :=
  { name := name, category := category, progress := 0, practice_hours := 0,
    created_at := now, last_updated := now,
    variant := .soft (max real_world_applications 0) }

/-- `get_skill_type`: the serialization discriminant of each variant. -/
def Skill.get_skill_type (s : Skill) : String :=
  match s.variant with
  | .technical _ => "Technical Skill"
  | .soft _ => "Soft Skill"

/-- `calculate_mastery_score`, dispatched on the variant exactly as the two
overrides in `TechnicalSkill` and `SoftSkill` compute it. -/
def Skill.calculate_mastery_score (s : Skill) : ℚ :=
  match s.variant with
  | .technical difficulty_level =>
      let difficulty_bonus : ℚ := ((difficulty_level : ℚ) / 10) * 100
      let practice_factor : ℚ := min ((s.practice_hours / 100) * 100) 100
      let mastery : ℚ :=
        (s.progress * 0.5) + (practice_factor * 0.3) + (difficulty_bonus * 0.2)
      min mastery 100
  | .soft real_world_applications =>
      let practice_factor : ℚ := min ((s.practice_hours / 50) * 100) 100
      let application_factor : ℚ :=
        min (((real_world_applications : ℚ) / 20) * 100) 100
      let mastery : ℚ :=
        (s.progress * 0.4) + (practice_factor * 0.3) + (application_factor * 0.3)
      min mastery 100

/-- `SkillBase.update_progress`: validates `0 <= progress <= 100`, then sets
`_progress` and refreshes `_last_updated`. -/
def Skill.update_progress (s : Skill) (progress : ℚ) (now : String) :
    Except SkillError Skill :=
  if ¬ (0 ≤ progress ∧ progress ≤ 100) then
    .error .validationError
  else
    .ok { s with progress := progress, last_updated := now }

/-- `SkillBase.log_practice_hours`: rejects negative hours, otherwise adds
them to `_practice_hours` and refreshes `_last_updated`. -/
def Skill.log_practice_hours (s : Skill) (hours : ℚ) (now : String) :
    Except SkillError Skill :=
  if hours < 0 then
    .error .validationError
  else
    .ok { s with practice_hours := s.practice_hours + hours, last_updated := now }

/-- `SoftSkill.add_real_world_application`: increments the application count
and refreshes `_last_updated`. Only reached through the manager after the
`isinstance(skill, SoftSkill)` check, so the technical branch is inert. -/
def Skill.add_real_world_application (s : Skill) (now : String) : Skill :=
  match s.variant with
  | .soft a => { s with variant := .soft (a + 1), last_updated := now }
  | .technical _ => s

/-- One JSON record of the persisted file, as produced by `to_dict`:
the common fields, the `skill_type` discriminant, and the optional
variant-specific field. -/
structure SkillRecord where
  name : String
  category : String
  progress : ℚ
  practice_hours : ℚ
  created_at : String
  last_updated : String
  skill_type : String
  difficulty_level : Option Int := none
  real_world_applications : Option Int := none
deriving DecidableEq, Repr

/-- `to_dict` (the base dictionary plus the subclass override adding the
variant-specific key). -/
def Skill.to_dict (s : Skill) : SkillRecord :=
  { name := s.name, category := s.category, progress := s.progress,
    practice_hours := s.practice_hours, created_at := s.created_at,
    last_updated := s.last_updated, skill_type := s.get_skill_type,
    difficulty_level := match s.variant with
      | .technical d => some d
      | .soft _ => none,
    real_world_applications := match s.variant with
      | .soft a => some a
      | .technical _ => none }

/-- The manager's in-memory state: the ordered skill collection
(`self.__skills`). The storage-file name plays no role in the data logic. -/
structure SkillForgeManager where
  skills : List Skill
deriving DecidableEq, Repr

/-- Python's `str.lower()`, written over the character list (the same
per-character lowercasing as Lean's `String.toLower`, in a form the
kernel evaluates). -/
def lower (s : String) : String := ⟨s.data.map Char.toLower⟩

/-- `__skill_exists`: case-insensitive membership test on names. -/
def SkillForgeManager.skill_exists (m : SkillForgeManager) (name : String) :
    Bool :=
  m.skills.any fun skill => lower skill.name == lower name

/-- `__find_skill`: first skill whose name matches case-insensitively. -/
def SkillForgeManager.find_skill (m : SkillForgeManager) (name : String) :
    Option Skill :=
  m.skills.find? fun skill => lower skill.name == lower name

/-- Replace the first case-insensitive name match by `s'`. Python mutates
the object returned by `__find_skill` in place; since that object is the
first match in the list, the effect on the collection is exactly this. -/
def replaceFirst (skills : List Skill) (name : String) (s' : Skill) :
    List Skill :=
  match skills with
  | [] => []
  | s :: rest =>
      if lower s.name == lower name then s' :: rest
      else s :: replaceFirst rest name s'

/-- `add_technical_skill`: duplicate check, then construct and append. -/
def SkillForgeManager.add_technical_skill (m : SkillForgeManager)
    (name category : String) (difficulty : Int) (now : String) :
    Except SkillError SkillForgeManager :=
  if m.skill_exists name then
    .error .duplicateSkillError
  else
    .ok ⟨m.skills ++ [mkTechnicalSkill name category difficulty now]⟩

/-- `add_soft_skill`: duplicate check, then construct and append. -/
def SkillForgeManager.add_soft_skill (m : SkillForgeManager)
    (name category : String) (applications : Int) (now : String) :
    Except SkillError SkillForgeManager :=
  if m.skill_exists name then
    .error .duplicateSkillError
  else
    .ok ⟨m.skills ++ [mkSoftSkill name category applications now]⟩

/-- `update_skill_progress`: find the skill, delegate to
`update_progress`, or fail with not-found. -/
def SkillForgeManager.update_skill_progress (m : SkillForgeManager)
    (name : String) (progress : ℚ) (now : String) :
    Except SkillError SkillForgeManager :=
  match m.find_skill name with
  | some skill =>
      match skill.update_progress progress now with
      | .ok skill' => .ok ⟨replaceFirst m.skills name skill'⟩
      | .error e => .error e
  | none => .error .notFoundError

/-- `log_practice_hours` (manager level): find the skill, delegate, or fail
with not-found. -/
def SkillForgeManager.log_practice_hours (m : SkillForgeManager)
    (name : String) (hours : ℚ) (now : String) :
    Except SkillError SkillForgeManager :=
  match m.find_skill name with
  | some skill =>
      match skill.log_practice_hours hours now with
      | .ok skill' => .ok ⟨replaceFirst m.skills name skill'⟩
      | .error e => .error e
  | none => .error .notFoundError

/-- `add_soft_skill_application`: find the skill; if it is a `SoftSkill`,
increment its application count; if it is some other variant, type
mismatch; otherwise not found. -/
def SkillForgeManager.add_soft_skill_application (m : SkillForgeManager)
    (name : String) (now : String) : Except SkillError SkillForgeManager :=
  match m.find_skill name with
  | some skill =>
      match skill.variant with
      | .soft _ =>
          .ok ⟨replaceFirst m.skills name (skill.add_real_world_application now)⟩
      | .technical _ => .error .typeMismatchError
  | none => .error .notFoundError

/-- `list_skill_names`: names in insertion order. -/
def SkillForgeManager.list_skill_names (m : SkillForgeManager) : List String :=
  m.skills.map Skill.name

/-- The descending-by-mastery comparison used by
`sorted(self.__skills, key=lambda s: s.calculate_mastery_score(), reverse=True)`.
Python's `sorted` is a stable sort; with `reverse=True` it orders by
strictly greater key and keeps the original order of equal keys, which is
exactly a stable sort under this total boolean order. -/
def masteryGE (a b : Skill) : Bool :=
  b.calculate_mastery_score ≤ a.calculate_mastery_score

/-- The sorted view produced inside `display_all_skills`. Python's
`sorted` builds a new list, leaving `self.__skills` untouched. -/
def SkillForgeManager.sorted_by_mastery (m : SkillForgeManager) : List Skill :=
  m.skills.mergeSort masteryGE

/-- `save_skills`: one record per skill, in collection order (the
surrounding JSON object adds only the `last_saved` timestamp). -/
def save_skills (m : SkillForgeManager) : List SkillRecord :=
  m.skills.map Skill.to_dict

/-- The per-record body of the `__load_skills` loop: dispatch on
`skill_type`; unknown discriminants hit the `continue` (here `none`);
missing optional fields default to 5 / 0; then `_progress`,
`_practice_hours`, `_created_at`, `_last_updated` are assigned directly,
overwriting what the constructor set. -/
def load_record (r : SkillRecord) : Option Skill :=
  if r.skill_type == "Technical Skill" then
    let skill := mkTechnicalSkill r.name r.category (r.difficulty_level.getD 5) ""
    some { skill with
           progress := r.progress
           practice_hours := r.practice_hours
           created_at := r.created_at
           last_updated := r.last_updated }
  else if r.skill_type == "Soft Skill" then
    let skill := mkSoftSkill r.name r.category (r.real_world_applications.getD 0) ""
    some { skill with
           progress := r.progress
           practice_hours := r.practice_hours
           created_at := r.created_at
           last_updated := r.last_updated }
  else
    none

/-- `__load_skills` over an already-parsed record list: each record is
loaded or skipped, appending in file order. -/
def load_skills (records : List SkillRecord) : List Skill :=
  records.filterMap load_record

/-- Unwrap a successful manager operation (used only to build concrete
scenario states whose operations are proved to succeed). -/
def getOk (r : Except SkillError SkillForgeManager) : SkillForgeManager :=
  match r with
  | .ok m => m
  | .error _ => ⟨[]⟩

/-- The spec's technical mastery formula, written from the spec text:
`difficultyBonus = (difficultyLevel / 10) * 100`;
`practiceFactor = min((practiceHours / 100) * 100, 100)`;
`mastery = progress*0.5 + practiceFactor*0.3 + difficultyBonus*0.2`,
clamped to at most 100. -/
def specTechnicalMastery (progress practice_hours : ℚ)
    (difficulty_level : Int) : ℚ :=
  let difficultyBonus : ℚ := ((difficulty_level : ℚ) / 10) * 100
  let practiceFactor : ℚ := min ((practice_hours / 100) * 100) 100
  min (progress * 0.5 + practiceFactor * 0.3 + difficultyBonus * 0.2) 100

/-- The spec's soft mastery formula, written from the spec text:
`practiceFactor = min((practiceHours / 50) * 100, 100)`;
`applicationFactor = min((realWorldApplications / 20) * 100, 100)`;
`mastery = progress*0.4 + practiceFactor*0.3 + applicationFactor*0.3`,
clamped to at most 100. -/
def specSoftMastery (progress practice_hours : ℚ)
    (real_world_applications : Int) : ℚ :=
  let practiceFactor : ℚ := min ((practice_hours / 50) * 100) 100
  let applicationFactor : ℚ :=
    min (((real_world_applications : ℚ) / 20) * 100) 100
  min (progress * 0.4 + practiceFactor * 0.3 + applicationFactor * 0.3) 100

/-- The spec's first worked example, built through the manager operations:
add Technical("Rust", "Systems", difficulty=8); log 40 hours; update
progress to 60. -/
def rustManager : SkillForgeManager :=
  getOk ((getOk ((getOk ((SkillForgeManager.mk []).add_technical_skill
    "Rust" "Systems" 8 "t0")).log_practice_hours
    "Rust" 40 "t1")).update_skill_progress "Rust" 60 "t2")

/-- The spec's second worked example, built through the manager operations:
add Soft("Public Speaking", "Communication", applications=5); update
progress to 80; log 25 hours. -/
def speakingManager : SkillForgeManager :=
  getOk ((getOk ((getOk ((SkillForgeManager.mk []).add_soft_skill
    "Public Speaking" "Communication" 5 "t0")).update_skill_progress
    "Public Speaking" 80 "t1")).log_practice_hours "Public Speaking" 25 "t2")
/-- The skill state reached in the first worked example. -/
def rustSkill : Skill :=
  ⟨"Rust", "Systems", 60, 40, "t0", "t2", Variant.technical 8⟩

/-- The skill state reached in the second worked example. -/
def speakingSkill : Skill :=
  ⟨"Public Speaking", "Communication", 80, 25, "t0", "t2", Variant.soft 5⟩

lemma rustManager_eq : rustManager = ⟨[rustSkill]⟩ := by
  have h1 : (SkillForgeManager.mk []).add_technical_skill "Rust" "Systems" 8 "t0" =
      .ok ⟨[⟨"Rust", "Systems", 0, 0, "t0", "t0", Variant.technical 8⟩]⟩ := by
    simp [SkillForgeManager.add_technical_skill, SkillForgeManager.skill_exists,
      mkTechnicalSkill]
  have h2 : (SkillForgeManager.mk
        [(⟨"Rust", "Systems", 0, 0, "t0", "t0", Variant.technical 8⟩ : Skill)]).log_practice_hours
        "Rust" 40 "t1" =
      .ok ⟨[⟨"Rust", "Systems", 0, 40, "t0", "t1", Variant.technical 8⟩]⟩ := by
    norm_num [SkillForgeManager.log_practice_hours, SkillForgeManager.find_skill,
      Skill.log_practice_hours, replaceFirst]
  have h3 : (SkillForgeManager.mk
        [(⟨"Rust", "Systems", 0, 40, "t0", "t1", Variant.technical 8⟩ : Skill)]).update_skill_progress
        "Rust" 60 "t2" =
      .ok ⟨[rustSkill]⟩ := by
    norm_num [SkillForgeManager.update_skill_progress, SkillForgeManager.find_skill,
      Skill.update_progress, replaceFirst, rustSkill]
  simp [rustManager, h1, h2, h3, getOk]

lemma speakingManager_eq : speakingManager = ⟨[speakingSkill]⟩ := by
  have h1 : (SkillForgeManager.mk []).add_soft_skill "Public Speaking" "Communication" 5 "t0" =
      .ok ⟨[⟨"Public Speaking", "Communication", 0, 0, "t0", "t0", Variant.soft 5⟩]⟩ := by
    simp [SkillForgeManager.add_soft_skill, SkillForgeManager.skill_exists, mkSoftSkill]
  have h2 : (SkillForgeManager.mk
        [(⟨"Public Speaking", "Communication", 0, 0, "t0", "t0", Variant.soft 5⟩ : Skill)]).update_skill_progress
        "Public Speaking" 80 "t1" =
      .ok ⟨[⟨"Public Speaking", "Communication", 80, 0, "t0", "t1", Variant.soft 5⟩]⟩ := by
    norm_num [SkillForgeManager.update_skill_progress, SkillForgeManager.find_skill,
      Skill.update_progress, replaceFirst]
  have h3 : (SkillForgeManager.mk
        [(⟨"Public Speaking", "Communication", 80, 0, "t0", "t1", Variant.soft 5⟩ : Skill)]).log_practice_hours
        "Public Speaking" 25 "t2" =
      .ok ⟨[speakingSkill]⟩ := by
    norm_num [SkillForgeManager.log_practice_hours, SkillForgeManager.find_skill,
      Skill.log_practice_hours, replaceFirst, speakingSkill]
  simp [speakingManager, h1, h2, h3, getOk]

/-- Claim C1: `calculate_mastery_score` is exactly the variant-specific
spec formula on every skill, and on the spec's two worked scenarios
(Rust: difficulty 8, 40 hours, progress 60; Public Speaking: 5
applications, progress 80, 25 hours) it yields 58.00 and 54.50. -/
theorem c1_mastery_formula_matches_spec :
    (∀ (s : Skill) (d : Int), s.variant = .technical d →
        s.calculate_mastery_score =
          specTechnicalMastery s.progress s.practice_hours d)
    ∧ (∀ (s : Skill) (a : Int), s.variant = .soft a →
        s.calculate_mastery_score =
          specSoftMastery s.progress s.practice_hours a)
    ∧ rustManager.skills.map Skill.calculate_mastery_score = [58]
    ∧ speakingManager.skills.map Skill.calculate_mastery_score = [54.5] := by
  refine ⟨?_, ?_, ?_, ?_⟩
  · intro s d h
    simp only [Skill.calculate_mastery_score, h, specTechnicalMastery]
  · intro s a h
    simp only [Skill.calculate_mastery_score, h, specSoftMastery]
  · rw [rustManager_eq]
    norm_num [Skill.calculate_mastery_score, rustSkill, min_def]
  · rw [speakingManager_eq]
    norm_num [Skill.calculate_mastery_score, speakingSkill, min_def]

/-- Claim C1 witness: the two formula equalities applied at the concrete
scenario skills. -/
theorem c1_mastery_formula_matches_spec_witness :
    rustSkill.calculate_mastery_score = specTechnicalMastery 60 40 8
    ∧ speakingSkill.calculate_mastery_score = specSoftMastery 80 25 5 :=
  ⟨c1_mastery_formula_matches_spec.1 rustSkill 8 rfl,
   c1_mastery_formula_matches_spec.2.1 speakingSkill 5 rfl⟩

/-- The data-model invariant on a variant's specific field: difficulty in
the 1–10 scale, application count non-negative. -/
def VariantValid : Variant → Prop
  | .technical d => 1 ≤ d ∧ d ≤ 10
  | .soft a => 0 ≤ a

/-- The data-model invariants on a skill's fields (spec §3). -/
def ValidSkill (s : Skill) : Prop :=
  0 ≤ s.progress ∧ s.progress ≤ 100 ∧ 0 ≤ s.practice_hours ∧
    VariantValid s.variant

/-- The extreme technical skill of the spec's clamp property:
difficulty 10, 1000 practice hours, progress 100. -/
def extremeTechnical : Skill :=
  ⟨"Extreme", "Systems", 100, 1000, "t0", "t0", Variant.technical 10⟩

/-- Claim C3: on every skill satisfying the data-model invariants the
mastery score lies in [0,100], and at the extreme (difficulty 10,
1000 hours, progress 100) it is exactly 100. -/
theorem c3_mastery_score_in_range :
    (∀ s : Skill, ValidSkill s →
        0 ≤ s.calculate_mastery_score ∧ s.calculate_mastery_score ≤ 100)
    ∧ extremeTechnical.calculate_mastery_score = 100 := by
  constructor
  · intro s hs
    obtain ⟨hp0, hp1, hh, hv⟩ := hs
    cases hvar : s.variant with
    | technical d =>
      rw [hvar] at hv
      obtain ⟨hd1, hd10⟩ := hv
      have hd1q : (1 : ℚ) ≤ (d : ℚ) := by exact_mod_cast hd1
      have hpf : (0 : ℚ) ≤ min ((s.practice_hours / 100) * 100) 100 :=
        le_min (mul_nonneg (div_nonneg hh (by norm_num)) (by norm_num)) (by norm_num)
      have hdb : (0 : ℚ) ≤ ((d : ℚ) / 10) * 100 :=
        mul_nonneg (div_nonneg (by linarith) (by norm_num)) (by norm_num)
      constructor
      · simp only [Skill.calculate_mastery_score, hvar]
        refine le_min ?_ (by norm_num)
        have h1 : (0 : ℚ) ≤ s.progress * 0.5 := mul_nonneg hp0 (by norm_num)
        have h2 : (0 : ℚ) ≤ min ((s.practice_hours / 100) * 100) 100 * 0.3 :=
          mul_nonneg hpf (by norm_num)
        have h3 : (0 : ℚ) ≤ ((d : ℚ) / 10) * 100 * 0.2 := mul_nonneg hdb (by norm_num)
        linarith
      · simp only [Skill.calculate_mastery_score, hvar]
        exact min_le_right _ _
    | soft a =>
      rw [hvar] at hv
      have ha : (0 : ℚ) ≤ (a : ℚ) := by exact_mod_cast hv
      have hpf : (0 : ℚ) ≤ min ((s.practice_hours / 50) * 100) 100 :=
        le_min (mul_nonneg (div_nonneg hh (by norm_num)) (by norm_num)) (by norm_num)
      have haf : (0 : ℚ) ≤ min (((a : ℚ) / 20) * 100) 100 :=
        le_min (mul_nonneg (div_nonneg ha (by norm_num)) (by norm_num)) (by norm_num)
      constructor
      · simp only [Skill.calculate_mastery_score, hvar]
        refine le_min ?_ (by norm_num)
        have h1 : (0 : ℚ) ≤ s.progress * 0.4 := mul_nonneg hp0 (by norm_num)
        have h2 : (0 : ℚ) ≤ min ((s.practice_hours / 50) * 100) 100 * 0.3 :=
          mul_nonneg hpf (by norm_num)
        have h3 : (0 : ℚ) ≤ min (((a : ℚ) / 20) * 100) 100 * 0.3 :=
          mul_nonneg haf (by norm_num)
        linarith
      · simp only [Skill.calculate_mastery_score, hvar]
        exact min_le_right _ _
  · norm_num [Skill.calculate_mastery_score, extremeTechnical, min_def]

/-- Claim C3 witness: the range bound applied at the extreme technical
skill, whose invariants hold. -/
theorem c3_mastery_score_in_range_witness :
    0 ≤ extremeTechnical.calculate_mastery_score
    ∧ extremeTechnical.calculate_mastery_score ≤ 100 :=
  c3_mastery_score_in_range.1 extremeTechnical
    ⟨by norm_num [extremeTechnical], by norm_num [extremeTechnical],
     by norm_num [extremeTechnical], by norm_num [extremeTechnical, VariantValid]⟩

/-- Claim C4: `update_progress` fails with the validation error exactly
when the value is outside [0,100] (and then no updated skill is
produced, so the skill's state is unchanged); inside the range it
succeeds, the new progress reads back as exactly the given value, and
only `progress` and `last_updated` change. -/
theorem c4_update_progress_validation (s : Skill) (v : ℚ) (now : String) :
    (s.update_progress v now = .error .validationError ↔ ¬ (0 ≤ v ∧ v ≤ 100))
    ∧ ((0 ≤ v ∧ v ≤ 100) →
        s.update_progress v now = .ok { s with progress := v, last_updated := now })
    ∧ (∀ s', s.update_progress v now = .ok s' → s'.progress = v) := by
  refine ⟨⟨?_, ?_⟩, ?_, ?_⟩
  · intro h hv
    simp [Skill.update_progress, hv] at h
  · intro hv
    simp [Skill.update_progress, hv]
  · intro hv
    simp [Skill.update_progress, hv]
  · intro s' h
    by_cases hv : 0 ≤ v ∧ v ≤ 100
    · simp [Skill.update_progress, hv] at h
      rw [← h]
    · simp [Skill.update_progress, hv] at h

/-- Claim C4 witness: updating the Rust scenario skill to 73 succeeds and
reads back 73. -/
theorem c4_update_progress_validation_witness :
    rustSkill.update_progress 73 "t3" =
      .ok { rustSkill with progress := 73, last_updated := "t3" } :=
  (c4_update_progress_validation rustSkill 73 "t3").2.1
    ⟨by norm_num, by norm_num⟩

/-- Claim C9: adding a soft skill under a fresh name never fails on
account of the initial application count; a negative count is silently
clamped to 0 by the constructor (`max(real_world_applications, 0)`). -/
theorem c9_negative_applications_clamped (m : SkillForgeManager)
    (name category : String) (apps : Int) (now : String)
    (h : m.skill_exists name = false) :
    m.add_soft_skill name category apps now =
      .ok ⟨m.skills ++ [mkSoftSkill name category apps now]⟩
    ∧ (mkSoftSkill name category apps now).variant = .soft (max apps 0) := by
  constructor
  · simp [SkillForgeManager.add_soft_skill, h]
  · rfl

/-- Claim C9 witness: adding "Networking" with -3 initial applications to
an empty manager succeeds and stores 0 applications. -/
theorem c9_negative_applications_clamped_witness :
    (SkillForgeManager.mk []).add_soft_skill "Networking" "Social" (-3) "t0" =
      .ok ⟨[mkSoftSkill "Networking" "Social" (-3) "t0"]⟩
    ∧ (mkSoftSkill "Networking" "Social" (-3) "t0").variant = .soft 0 := by
  have h := c9_negative_applications_clamped ⟨[]⟩ "Networking" "Social" (-3) "t0" rfl
  exact ⟨h.1, by simpa using h.2⟩

lemma skillExists_iff (m : SkillForgeManager) (name : String) :
    m.skill_exists name = true ↔ ∃ s ∈ m.skills, lower s.name = lower name := by
  simp [SkillForgeManager.skill_exists]

/-- A soft skill named "python", for the spec's duplicate example. -/
def pySkill : Skill :=
  ⟨"python", "Programming", 0, 0, "t0", "t0", Variant.soft 0⟩

/-- Claim C5: both add operations fail with the duplicate error exactly
when some stored skill has the same name case-insensitively (and then no
new collection is produced, so the stored one is unchanged); otherwise the
new skill is appended at the end. -/
theorem c5_add_duplicate_guard (m : SkillForgeManager)
    (name category : String) (d apps : Int) (now : String) :
    (m.add_technical_skill name category d now = .error .duplicateSkillError ↔
        ∃ s ∈ m.skills, lower s.name = lower name)
    ∧ (m.add_soft_skill name category apps now = .error .duplicateSkillError ↔
        ∃ s ∈ m.skills, lower s.name = lower name)
    ∧ ((∀ s ∈ m.skills, lower s.name ≠ lower name) →
        m.add_technical_skill name category d now =
          .ok ⟨m.skills ++ [mkTechnicalSkill name category d now]⟩
        ∧ m.add_soft_skill name category apps now =
          .ok ⟨m.skills ++ [mkSoftSkill name category apps now]⟩) := by
  have hex := skillExists_iff m name
  refine ⟨?_, ?_, ?_⟩
  · by_cases h : m.skill_exists name
    · simp [SkillForgeManager.add_technical_skill, h]
      exact hex.mp h
    · simp [SkillForgeManager.add_technical_skill, h]
      intro s hsmem hseq
      exact h (hex.mpr ⟨s, hsmem, hseq⟩)
  · by_cases h : m.skill_exists name
    · simp [SkillForgeManager.add_soft_skill, h]
      exact hex.mp h
    · simp [SkillForgeManager.add_soft_skill, h]
      intro s hsmem hseq
      exact h (hex.mpr ⟨s, hsmem, hseq⟩)
  · intro hall
    have h : m.skill_exists name = false := by
      rw [Bool.eq_false_iff]
      intro hc
      obtain ⟨s, hsmem, hseq⟩ := hex.mp hc
      exact hall s hsmem hseq
    constructor
    · simp [SkillForgeManager.add_technical_skill, h]
    · simp [SkillForgeManager.add_soft_skill, h]

/-- Claim C5 witness: with "python" stored, adding "Python" fails with the
duplicate error. -/
theorem c5_add_duplicate_guard_witness :
    (SkillForgeManager.mk [pySkill]).add_technical_skill
      "Python" "Programming" 5 "t1" = .error .duplicateSkillError :=
  (c5_add_duplicate_guard ⟨[pySkill]⟩ "Python" "Programming" 5 0 "t1").1.mpr
    ⟨pySkill, by simp, by decide⟩

lemma find_replace_decomp (skills : List Skill) (name : String) (s : Skill)
    (h : skills.find? (fun t => lower t.name == lower name) = some s)
    (s' : Skill) :
    ∃ l₁ l₂, skills = l₁ ++ s :: l₂
      ∧ (∀ x ∈ l₁, lower x.name ≠ lower name)
      ∧ replaceFirst skills name s' = l₁ ++ s' :: l₂ := by
  induction skills with
  | nil => simp at h
  | cons t rest ih =>
    by_cases ht : (lower t.name == lower name) = true
    · simp only [List.find?, ht] at h
      obtain rfl : t = s := by injection h
      exact ⟨[], rest, by simp, by simp, by simp [replaceFirst, ht]⟩
    · rw [Bool.not_eq_true] at ht
      simp only [List.find?, ht] at h
      rw [← Bool.not_eq_true] at ht
      obtain ⟨l₁, l₂, heq, hall, hrep⟩ := ih h
      refine ⟨t :: l₁, l₂, by simp [heq], ?_, by simp [replaceFirst, ht, hrep]⟩
      intro x hx
      rcases List.mem_cons.mp hx with hx | hx
      · subst hx
        intro hc
        exact ht (beq_iff_eq.mpr hc)
      · exact hall x hx

/-- Claim C6: `add_soft_skill_application` fails with not-found when no
name matches, fails with type-mismatch when the first match is a
technical skill (in both failure cases no new collection is produced, so
the stored one is unchanged), and on a soft match increments exactly that
skill's application count by 1, leaving every other skill untouched. -/
theorem c6_add_application_cases (m : SkillForgeManager) (name now : String) :
    (m.find_skill name = none →
        m.add_soft_skill_application name now = .error .notFoundError)
    ∧ (∀ s d, m.find_skill name = some s → s.variant = .technical d →
        m.add_soft_skill_application name now = .error .typeMismatchError)
    ∧ (∀ s a, m.find_skill name = some s → s.variant = .soft a →
        ∃ l₁ l₂, m.skills = l₁ ++ s :: l₂
          ∧ (∀ x ∈ l₁, lower x.name ≠ lower name)
          ∧ m.add_soft_skill_application name now =
              .ok ⟨l₁ ++ { s with variant := .soft (a + 1), last_updated := now } :: l₂⟩) := by
  refine ⟨?_, ?_, ?_⟩
  · intro h
    simp [SkillForgeManager.add_soft_skill_application, h]
  · intro s d hf hv
    simp [SkillForgeManager.add_soft_skill_application, hf, hv]
  · intro s a hf hv
    have hs' : s.add_real_world_application now =
        { s with variant := .soft (a + 1), last_updated := now } := by
      simp [Skill.add_real_world_application, hv]
    have hf' : m.skills.find? (fun t => lower t.name == lower name) = some s := hf
    obtain ⟨l₁, l₂, heq, hall, hrep⟩ :=
      find_replace_decomp m.skills name s hf'
        { s with variant := .soft (a + 1), last_updated := now }
    refine ⟨l₁, l₂, heq, hall, ?_⟩
    simp only [SkillForgeManager.add_soft_skill_application, hf, hv, hs']
    rw [hrep]

/-- Claim C6 witness: incrementing "PYTHON" (stored as soft skill
"python") succeeds and bumps its application count from 0 to 1. -/
theorem c6_add_application_cases_witness :
    ∃ l₁ l₂, (SkillForgeManager.mk [pySkill]).skills = l₁ ++ pySkill :: l₂
      ∧ (∀ x ∈ l₁, lower x.name ≠ lower "PYTHON")
      ∧ (SkillForgeManager.mk [pySkill]).add_soft_skill_application "PYTHON" "t1" =
          .ok ⟨l₁ ++ { pySkill with variant := .soft (0 + 1), last_updated := "t1" } :: l₂⟩ :=
  (c6_add_application_cases ⟨[pySkill]⟩ "PYTHON" "t1").2.2 pySkill 0 (by decide) rfl

/-- Claim C8: load skips any record whose discriminant is neither tag
(and the surrounding records still load), defaults a technical record's
missing difficulty to 5 and a soft record's missing application count
to 0. -/
theorem c8_load_skip_and_defaults (r : SkillRecord) (rs1 rs2 : List SkillRecord) :
    (r.skill_type ≠ "Technical Skill" → r.skill_type ≠ "Soft Skill" →
        load_record r = none
        ∧ load_skills (rs1 ++ r :: rs2) = load_skills rs1 ++ load_skills rs2)
    ∧ (r.skill_type = "Technical Skill" → r.difficulty_level = none →
        load_record r = some ⟨r.name, r.category, r.progress, r.practice_hours,
          r.created_at, r.last_updated, .technical 5⟩)
    ∧ (r.skill_type = "Soft Skill" → r.real_world_applications = none →
        load_record r = some ⟨r.name, r.category, r.progress, r.practice_hours,
          r.created_at, r.last_updated, .soft 0⟩) := by
  refine ⟨?_, ?_, ?_⟩
  · intro h1 h2
    have hn : load_record r = none := by
      simp [load_record, h1, h2]
    exact ⟨hn, by simp [load_skills, List.filterMap_append, hn]⟩
  · intro h1 h2
    norm_num [load_record, h1, h2, mkTechnicalSkill]
  · intro h1 h2
    norm_num [load_record, h1, h2, mkSoftSkill]
    exact fun hc => absurd hc (by decide)

/-- Claim C8 witness: a record with unknown tag "Language Skill" between
two known records is skipped while both neighbours load; a technical and
a soft record without their optional field load with defaults 5 and 0. -/
theorem c8_load_skip_and_defaults_witness :
    (load_record ⟨"Chess", "Games", 10, 5, "t0", "t0", "Language Skill", none, none⟩ = none
      ∧ load_skills ([⟨"A", "c", 1, 2, "t0", "t0", "Technical Skill", some 7, none⟩] ++
          ⟨"Chess", "Games", 10, 5, "t0", "t0", "Language Skill", none, none⟩ ::
            [⟨"B", "c", 3, 4, "t0", "t0", "Soft Skill", none, some 2⟩]) =
        load_skills [⟨"A", "c", 1, 2, "t0", "t0", "Technical Skill", some 7, none⟩] ++
          load_skills [⟨"B", "c", 3, 4, "t0", "t0", "Soft Skill", none, some 2⟩])
    ∧ load_record ⟨"C", "c", 1, 2, "t0", "t1", "Technical Skill", none, none⟩ =
        some ⟨"C", "c", 1, 2, "t0", "t1", Variant.technical 5⟩
    ∧ load_record ⟨"D", "c", 1, 2, "t0", "t1", "Soft Skill", none, none⟩ =
        some ⟨"D", "c", 1, 2, "t0", "t1", Variant.soft 0⟩ :=
  ⟨(c8_load_skip_and_defaults ⟨"Chess", "Games", 10, 5, "t0", "t0", "Language Skill", none, none⟩
      [⟨"A", "c", 1, 2, "t0", "t0", "Technical Skill", some 7, none⟩]
      [⟨"B", "c", 3, 4, "t0", "t0", "Soft Skill", none, some 2⟩]).1
      (by decide) (by decide),
   (c8_load_skip_and_defaults ⟨"C", "c", 1, 2, "t0", "t1", "Technical Skill", none, none⟩ [] []).2.1
      rfl rfl,
   (c8_load_skip_and_defaults ⟨"D", "c", 1, 2, "t0", "t1", "Soft Skill", none, none⟩ [] []).2.2
      rfl rfl⟩

/-- The manager states the program can construct: start from loading a
persisted record list (an absent file is the empty list), then apply any
sequence of successful public operations. -/
inductive Reachable : SkillForgeManager → Prop where
  | load (records : List SkillRecord) : Reachable ⟨load_skills records⟩
  | addTechnical {m m' : SkillForgeManager} {name category : String}
      {d : Int} {now : String} : Reachable m →
      m.add_technical_skill name category d now = .ok m' → Reachable m'
  | addSoft {m m' : SkillForgeManager} {name category : String}
      {apps : Int} {now : String} : Reachable m →
      m.add_soft_skill name category apps now = .ok m' → Reachable m'
  | updateProgress {m m' : SkillForgeManager} {name : String} {p : ℚ}
      {now : String} : Reachable m →
      m.update_skill_progress name p now = .ok m' → Reachable m'
  | logHours {m m' : SkillForgeManager} {name : String} {hrs : ℚ}
      {now : String} : Reachable m →
      m.log_practice_hours name hrs now = .ok m' → Reachable m'
  | addApplication {m m' : SkillForgeManager} {name now : String} :
      Reachable m →
      m.add_soft_skill_application name now = .ok m' → Reachable m'

lemma load_record_valid (r : SkillRecord) (s : Skill)
    (h : load_record r = some s) : VariantValid s.variant := by
  unfold load_record at h
  split at h
  · obtain rfl : _ = s := by injection h
    exact ⟨le_min (le_max_right _ _) (by norm_num), min_le_right _ _⟩
  · split at h
    · obtain rfl : _ = s := by injection h
      exact le_max_right _ _
    · cases h

lemma mem_replaceFirst {skills : List Skill} {name : String} {s' x : Skill}
    (hx : x ∈ replaceFirst skills name s') : x ∈ skills ∨ x = s' := by
  induction skills with
  | nil => simp [replaceFirst] at hx
  | cons t rest ih =>
    rw [replaceFirst] at hx
    by_cases ht : (lower t.name == lower name) = true
    · rw [if_pos ht] at hx
      rcases List.mem_cons.mp hx with h | h
      · right; exact h
      · left; exact List.mem_cons_of_mem _ h
    · rw [if_neg ht] at hx
      rcases List.mem_cons.mp hx with h | h
      · left; simp [h]
      · rcases ih h with h2 | h2
        · left; exact List.mem_cons_of_mem _ h2
        · right; exact h2

lemma add_technical_ok {m m' : SkillForgeManager} {name category : String}
    {d : Int} {now : String}
    (h : m.add_technical_skill name category d now = .ok m') :
    m.skill_exists name = false
    ∧ m'.skills = m.skills ++ [mkTechnicalSkill name category d now] := by
  by_cases he : m.skill_exists name = true
  · simp [SkillForgeManager.add_technical_skill, he] at h
  · rw [Bool.not_eq_true] at he
    simp only [SkillForgeManager.add_technical_skill, he, Bool.false_eq_true,
      if_false, Except.ok.injEq] at h
    exact ⟨he, by rw [← h]⟩

lemma add_soft_ok {m m' : SkillForgeManager} {name category : String}
    {apps : Int} {now : String}
    (h : m.add_soft_skill name category apps now = .ok m') :
    m.skill_exists name = false
    ∧ m'.skills = m.skills ++ [mkSoftSkill name category apps now] := by
  by_cases he : m.skill_exists name = true
  · simp [SkillForgeManager.add_soft_skill, he] at h
  · rw [Bool.not_eq_true] at he
    simp only [SkillForgeManager.add_soft_skill, he, Bool.false_eq_true,
      if_false, Except.ok.injEq] at h
    exact ⟨he, by rw [← h]⟩

lemma update_skill_progress_ok {m m' : SkillForgeManager} {name : String}
    {p : ℚ} {now : String}
    (h : m.update_skill_progress name p now = .ok m') :
    ∃ s s', m.find_skill name = some s ∧ s'.name = s.name
      ∧ s'.variant = s.variant
      ∧ m'.skills = replaceFirst m.skills name s' := by
  cases hf : m.find_skill name with
  | none =>
    simp only [SkillForgeManager.update_skill_progress, hf] at h
    cases h
  | some s =>
    simp only [SkillForgeManager.update_skill_progress, hf] at h
    unfold Skill.update_progress at h
    by_cases hv : 0 ≤ p ∧ p ≤ 100
    · rw [if_neg (not_not_intro hv)] at h
      refine ⟨s, { s with progress := p, last_updated := now }, rfl, rfl, rfl, ?_⟩
      injection h with h
      rw [← h]
    · rw [if_pos hv] at h
      cases h
lemma log_practice_hours_ok {m m' : SkillForgeManager} {name : String}
    {hrs : ℚ} {now : String}
    (h : m.log_practice_hours name hrs now = .ok m') :
    ∃ s s', m.find_skill name = some s ∧ s'.name = s.name
      ∧ s'.variant = s.variant
      ∧ m'.skills = replaceFirst m.skills name s' := by
  cases hf : m.find_skill name with
  | none =>
    simp only [SkillForgeManager.log_practice_hours, hf] at h
    cases h
  | some s =>
    simp only [SkillForgeManager.log_practice_hours, hf] at h
    unfold Skill.log_practice_hours at h
    by_cases hv : hrs < 0
    · rw [if_pos hv] at h
      cases h
    · rw [if_neg hv] at h
      refine ⟨s, { s with practice_hours := s.practice_hours + hrs, last_updated := now }, rfl, rfl, rfl, ?_⟩
      injection h with h
      rw [← h]

lemma add_application_ok {m m' : SkillForgeManager} {name now : String}
    (h : m.add_soft_skill_application name now = .ok m') :
    ∃ s a, m.find_skill name = some s ∧ s.variant = .soft a
      ∧ m'.skills = replaceFirst m.skills name
          { s with variant := .soft (a + 1), last_updated := now } := by
  cases hf : m.find_skill name with
  | none =>
    simp only [SkillForgeManager.add_soft_skill_application, hf] at h
    cases h
  | some s =>
    cases hv : s.variant with
    | technical d =>
      simp only [SkillForgeManager.add_soft_skill_application, hf, hv] at h
      cases h
    | soft a =>
      simp only [SkillForgeManager.add_soft_skill_application, hf, hv] at h
      have hs' : s.add_real_world_application now =
          { s with variant := .soft (a + 1), last_updated := now } := by
        simp [Skill.add_real_world_application, hv]
      refine ⟨s, a, rfl, hv, ?_⟩
      rw [← hs']
      injection h with h
      rw [← h]

lemma find_skill_mem {m : SkillForgeManager} {name : String} {s : Skill}
    (h : m.find_skill name = some s) : s ∈ m.skills :=
  List.mem_of_find?_eq_some h

lemma reachable_variantValid {m : SkillForgeManager} (h : Reachable m) :
    ∀ s ∈ m.skills, VariantValid s.variant := by
  induction h with
  | load records =>
    intro s hs
    simp only [load_skills] at hs
    obtain ⟨r, _, hr⟩ := List.mem_filterMap.mp hs
    exact load_record_valid r s hr
  | addTechnical hr hok ih =>
    intro s hs
    rw [(add_technical_ok hok).2] at hs
    rcases List.mem_append.mp hs with h2 | h2
    · exact ih s h2
    · obtain rfl : _ = s := List.mem_singleton.mp h2 |>.symm
      exact ⟨le_min (le_max_right _ _) (by norm_num), min_le_right _ _⟩
  | addSoft hr hok ih =>
    intro s hs
    rw [(add_soft_ok hok).2] at hs
    rcases List.mem_append.mp hs with h2 | h2
    · exact ih s h2
    · obtain rfl : _ = s := List.mem_singleton.mp h2 |>.symm
      exact le_max_right _ _
  | updateProgress hr hok ih =>
    intro x hx
    obtain ⟨s, s', hf, hname, hvar, hskills⟩ := update_skill_progress_ok hok
    rw [hskills] at hx
    rcases mem_replaceFirst hx with h2 | h2
    · exact ih x h2
    · rw [h2, hvar]
      exact ih s (find_skill_mem hf)
  | logHours hr hok ih =>
    intro x hx
    obtain ⟨s, s', hf, hname, hvar, hskills⟩ := log_practice_hours_ok hok
    rw [hskills] at hx
    rcases mem_replaceFirst hx with h2 | h2
    · exact ih x h2
    · rw [h2, hvar]
      exact ih s (find_skill_mem hf)
  | addApplication hr hok ih =>
    intro x hx
    obtain ⟨s, a, hf, hvar, hskills⟩ := add_application_ok hok
    rw [hskills] at hx
    rcases mem_replaceFirst hx with h2 | h2
    · exact ih x h2
    · have ha : VariantValid (Variant.soft a) := by
        rw [← hvar]
        exact ih s (find_skill_mem hf)
      rw [h2]
      have : (0 : Int) ≤ a := ha
      show (0 : Int) ≤ a + 1
      omega

lemma load_to_dict (s : Skill) (hv : VariantValid s.variant) :
    load_record s.to_dict = some s := by
  cases s with
  | mk name category progress practice_hours created_at last_updated variant =>
    cases variant with
    | technical d =>
      obtain ⟨h1, h10⟩ := hv
      simp [Skill.to_dict, Skill.get_skill_type, load_record, mkTechnicalSkill]
      omega
    | soft a =>
      have h0 : (0 : Int) ≤ a := hv
      simp [Skill.to_dict, Skill.get_skill_type, load_record, mkSoftSkill]
      omega

/-- Claim C2: every manager state built through the public operations
(starting from a load, including the empty start) survives the
save-then-load round trip: the loaded collection equals the saved one,
skill for skill, in order, on every field. -/
theorem c2_save_load_round_trip (m : SkillForgeManager) (h : Reachable m) :
    load_skills (save_skills m) = m.skills := by
  have hall := reachable_variantValid h
  have key : ∀ l : List Skill, (∀ s ∈ l, VariantValid s.variant) →
      (l.map Skill.to_dict).filterMap load_record = l := by
    intro l
    induction l with
    | nil => intro _; simp
    | cons t rest ih =>
      intro hl
      rw [List.map_cons, List.filterMap_cons, load_to_dict t (hl t (by simp))]
      rw [ih fun s hs => hl s (List.mem_cons_of_mem _ hs)]
  exact key m.skills hall

/-- Claim C2 witness: the round trip applied to the reachable state holding
one freshly added soft skill. -/
theorem c2_save_load_round_trip_witness :
    load_skills (save_skills ⟨[mkSoftSkill "python" "Programming" 0 "t0"]⟩) =
      [mkSoftSkill "python" "Programming" 0 "t0"] :=
  c2_save_load_round_trip ⟨[mkSoftSkill "python" "Programming" 0 "t0"]⟩
    (Reachable.addSoft (Reachable.load []) rfl)

/-- All stored skill names are pairwise distinct under the
case-insensitive comparison the manager uses. -/
def NamesDistinct (m : SkillForgeManager) : Prop :=
  m.skills.Pairwise fun a b => lower a.name ≠ lower b.name

lemma namesDistinct_iff_map (m : SkillForgeManager) :
    NamesDistinct m ↔
      (m.skills.map fun x => lower x.name).Pairwise (· ≠ ·) :=
  Iff.symm List.pairwise_map

lemma replace_names_eq {m : SkillForgeManager} {name : String} {s s' : Skill}
    (hf : m.find_skill name = some s) (hn : s'.name = s.name) :
    (replaceFirst m.skills name s').map (fun x => lower x.name) =
      m.skills.map fun x => lower x.name := by
  have hf' : m.skills.find? (fun t => lower t.name == lower name) = some s := hf
  obtain ⟨l₁, l₂, heq, _, hrep⟩ := find_replace_decomp m.skills name s hf' s'
  rw [hrep, heq]
  simp [hn]

/-- Claim C10: case-insensitive name distinctness is preserved by every
public operation — the adds are guarded by the existence check and the
three mutating operations never change a skill's name. -/
theorem c10_names_distinct_invariant (m m' : SkillForgeManager)
    (name category now : String) (d apps : Int) (p hrs : ℚ)
    (hd : NamesDistinct m) :
    (m.add_technical_skill name category d now = .ok m' → NamesDistinct m')
    ∧ (m.add_soft_skill name category apps now = .ok m' → NamesDistinct m')
    ∧ (m.update_skill_progress name p now = .ok m' → NamesDistinct m')
    ∧ (m.log_practice_hours name hrs now = .ok m' → NamesDistinct m')
    ∧ (m.add_soft_skill_application name now = .ok m' → NamesDistinct m') := by
  refine ⟨?_, ?_, ?_, ?_, ?_⟩
  · intro h
    obtain ⟨hex, hskills⟩ := add_technical_ok h
    have hnotin : ∀ x ∈ m.skills, lower x.name ≠ lower name := by
      intro x hx hc
      have := (skillExists_iff m name).mpr ⟨x, hx, hc⟩
      rw [hex] at this
      cases this
    unfold NamesDistinct
    rw [hskills, List.pairwise_append]
    refine ⟨hd, by simp, ?_⟩
    intro a ha b hb
    obtain rfl : b = mkTechnicalSkill name category d now :=
      List.mem_singleton.mp hb
    exact hnotin a ha
  · intro h
    obtain ⟨hex, hskills⟩ := add_soft_ok h
    have hnotin : ∀ x ∈ m.skills, lower x.name ≠ lower name := by
      intro x hx hc
      have := (skillExists_iff m name).mpr ⟨x, hx, hc⟩
      rw [hex] at this
      cases this
    unfold NamesDistinct
    rw [hskills, List.pairwise_append]
    refine ⟨hd, by simp, ?_⟩
    intro a ha b hb
    obtain rfl : b = mkSoftSkill name category apps now :=
      List.mem_singleton.mp hb
    exact hnotin a ha
  · intro h
    obtain ⟨s, s', hf, hn, _, hskills⟩ := update_skill_progress_ok h
    rw [namesDistinct_iff_map, hskills, replace_names_eq hf hn]
    exact (namesDistinct_iff_map m).mp hd
  · intro h
    obtain ⟨s, s', hf, hn, _, hskills⟩ := log_practice_hours_ok h
    rw [namesDistinct_iff_map, hskills, replace_names_eq hf hn]
    exact (namesDistinct_iff_map m).mp hd
  · intro h
    obtain ⟨s, a, hf, hv, hskills⟩ := add_application_ok h
    rw [namesDistinct_iff_map, hskills,
      @replace_names_eq m name s { s with variant := .soft (a + 1), last_updated := now } hf rfl]
    exact (namesDistinct_iff_map m).mp hd

/-- Claim C10 witness: distinctness carries from the empty manager to the
manager holding one freshly added technical skill. -/
theorem c10_names_distinct_invariant_witness :
    NamesDistinct ⟨[mkTechnicalSkill "Python" "Programming" 5 "t0"]⟩ :=
  (c10_names_distinct_invariant ⟨[]⟩
      ⟨[mkTechnicalSkill "Python" "Programming" 5 "t0"]⟩
      "Python" "Programming" "t0" 5 0 0 0 List.Pairwise.nil).1 rfl

lemma masteryGE_trans (a b c : Skill) : masteryGE a b = true →
    masteryGE b c = true → masteryGE a c = true := by
  simp only [masteryGE, decide_eq_true_eq]
  intro h1 h2
  exact le_trans h2 h1

lemma masteryGE_total (a b : Skill) : (masteryGE a b || masteryGE b a) = true := by
  simp only [masteryGE, Bool.or_eq_true, decide_eq_true_eq]
  exact le_total _ _

/-- Claim C7: the displayed sequence is a permutation of the stored
collection (which the pure sorting function leaves untouched — display
order is recomputed, the stored list `m.skills` is not written), it is
ordered descending by mastery score, and any two skills with equal scores
keep their stored relative order (stability of Python's `sorted`). -/
theorem c7_sorted_view (m : SkillForgeManager) :
    m.sorted_by_mastery.Perm m.skills
    ∧ m.sorted_by_mastery.Pairwise
        (fun a b => b.calculate_mastery_score ≤ a.calculate_mastery_score)
    ∧ (∀ a b, [a, b].Sublist m.skills →
        a.calculate_mastery_score = b.calculate_mastery_score →
        [a, b].Sublist m.sorted_by_mastery) := by
  refine ⟨List.mergeSort_perm _ _, ?_, ?_⟩
  · have h := List.sorted_mergeSort masteryGE_trans masteryGE_total m.skills
    exact h.imp fun hab => of_decide_eq_true hab
  · intro a b hsub heq
    exact List.pair_sublist_mergeSort masteryGE_trans masteryGE_total
      (decide_eq_true (le_of_eq heq.symm)) hsub

/-- The tied pair used to exercise sort stability. -/
def tieA : Skill := ⟨"Alpha", "c", 50, 0, "t0", "t0", Variant.soft 0⟩

/-- The second element of the tied pair. -/
def tieB : Skill := ⟨"Beta", "c", 50, 0, "t0", "t0", Variant.soft 0⟩

/-- Claim C7 witness: two skills with equal scores stay in stored order in
the sorted view. -/
theorem c7_sorted_view_witness :
    [tieA, tieB].Sublist (SkillForgeManager.mk [tieA, tieB]).sorted_by_mastery :=
  (c7_sorted_view ⟨[tieA, tieB]⟩).2.2 tieA tieB (List.Sublist.refl _)
    (by norm_num [Skill.calculate_mastery_score, tieA, tieB, min_def])
